import Mathlib

/-!
# Verification of the geometry simplification engine of
# `analisis_inundaciones_colombia.py`

This file gives a shallow embedding of the geometry-simplification core
(Etapa 1) of the flood-dashboard generator, and proves or refutes the
frozen claims about it.

Modelling conventions:
* Python floats are modelled as exact rationals (`ℚ`); the square root in
  the distance primitive lives in `ℝ` (`Real.sqrt`).
* A coordinate point `[x, y]` is `Punto := ℚ × ℚ`.
* `_douglas_peucker` is a *partial* recursive Python function (for a
  negative tolerance on degenerate inputs the recursion never reaches a
  base case and the interpreter raises `RecursionError`).  It is embedded
  with an explicit fuel parameter: `none` means the computation did not
  finish within the given fuel, and divergence of the Python function on
  an input is expressed as `∀ fuel, … = none`.
* Python runtime errors (`IndexError`, `TypeError`) of
  `_redondear_coordenadas` are modelled by `Option`, with `none` for an
  exception.
-/

/-- A coordinate pair `[x, y]` (longitude, latitude). -/
abbrev Punto : Type := ℚ × ℚ

/-- Embedding of `_punto_distancia_a_linea(punto, inicio, fin)`:
perpendicular (segment-clamped) distance from `punto` to the segment
`inicio`–`fin`.  Mirrors the source line by line: the degenerate test
`inicio[0] == fin[0] and inicio[1] == fin[1]`, the clamped projection
parameter `t = max(0, min(1, …/(dx*dx+dy*dy)))` and the final
`math.sqrt`. -/
noncomputable def _punto_distancia_a_linea (punto inicio fin : Punto) : ℝ :=
  if inicio.1 = fin.1 ∧ inicio.2 = fin.2 then
    Real.sqrt (((punto.1 - inicio.1) ^ 2 + (punto.2 - inicio.2) ^ 2 : ℚ) : ℝ)
  else
    let dx : ℚ := fin.1 - inicio.1
    let dy : ℚ := fin.2 - inicio.2
    let t : ℚ := max 0 (min 1
      (((punto.1 - inicio.1) * dx + (punto.2 - inicio.2) * dy) / (dx * dx + dy * dy)))
    let proj_x : ℚ := inicio.1 + t * dx
    let proj_y : ℚ := inicio.2 + t * dy
    Real.sqrt (((punto.1 - proj_x) ^ 2 + (punto.2 - proj_y) ^ 2 : ℚ) : ℝ)

/-- One iteration of the scan loop of `_douglas_peucker`:
`d = _punto_distancia_a_linea(puntos[i], puntos[0], puntos[-1])`, then
`if d > distancia_max: indice_max = i; distancia_max = d`.
Out-of-range indexing cannot occur in the source (every `i` is interior),
so the defaulted access `getD` is faithful. -/
noncomputable def _paso_max (puntos : List Punto) (acc : ℝ × ℕ) (i : ℕ) : ℝ × ℕ :=
  let d := _punto_distancia_a_linea (puntos.getD i ((0 : ℚ), (0 : ℚ)))
    (puntos.getD 0 ((0 : ℚ), (0 : ℚ))) (puntos.getLastD ((0 : ℚ), (0 : ℚ)))
  if acc.1 < d then (d, i) else acc

/-- The interior scan of `_douglas_peucker`: the `for i in
range(1, len(puntos) - 1)` loop accumulating `(distancia_max, indice_max)`
starting from `(0, 0)`. -/
noncomputable def _buscar_max (puntos : List Punto) : ℝ × ℕ :=
  (List.range' 1 (puntos.length - 1 - 1)).foldl (_paso_max puntos) ((0 : ℝ), (0 : ℕ))

/-- Embedding of `_douglas_peucker(puntos, epsilon)` with an explicit fuel
bounding the recursion depth; `none` models a computation that does not
terminate within `fuel` nested calls (the Python recursion is genuinely
partial, see `C9`).  Slices `puntos[:indice_max+1]` and
`puntos[indice_max:]` become `take (indice_max+1)` and `drop indice_max`;
`izquierda[:-1] + derecha` becomes `izquierda.dropLast ++ derecha`;
`[puntos[0], puntos[-1]]` becomes the defaulted head/last pair. -/
noncomputable def _douglas_peucker : ℕ → List Punto → ℚ → Option (List Punto)
  | 0, _, _ => none
  | fuel + 1, puntos, epsilon =>
    if puntos.length ≤ 2 then some puntos
    else
      if (epsilon : ℝ) < (_buscar_max puntos).1 then
        match _douglas_peucker fuel (puntos.take ((_buscar_max puntos).2 + 1)) epsilon,
              _douglas_peucker fuel (puntos.drop (_buscar_max puntos).2) epsilon with
        | some izquierda, some derecha => some (izquierda.dropLast ++ derecha)
        | _, _ => none
      else
        some [puntos.getD 0 ((0 : ℚ), (0 : ℚ)), puntos.getLastD ((0 : ℚ), (0 : ℚ))]

/-- `_douglas_peucker` terminates on `(puntos, epsilon)` with result `r`
(for some recursion-depth budget; results are fuel-monotone). -/
def DPReturns (puntos : List Punto) (epsilon : ℚ) (r : List Punto) : Prop :=
  ∃ fuel, _douglas_peucker fuel puntos epsilon = some r

/-- The Python recursion of `_douglas_peucker` never terminates on
`(puntos, epsilon)`: no fuel suffices. -/
def DPDiverges (puntos : List Punto) (epsilon : ℚ) : Prop :=
  ∀ fuel, _douglas_peucker fuel puntos epsilon = none

/-- Embedding of `_simplificar_anillo(anillo, epsilon)`, including the
curious source fallback `return anillo if len(anillo) >= 4 else anillo`
(both branches return the original ring). -/
noncomputable def _simplificar_anillo (fuel : ℕ) (anillo : List Punto) (epsilon : ℚ) :
    Option (List Punto) :=
  (_douglas_peucker fuel anillo epsilon).map (fun simplificado =>
    if simplificado.length < 4 then
      (if 4 ≤ anillo.length then anillo else anillo)
    else simplificado)

/-- A Python nested coordinate value: either a number (an `int`/`float`
leaf component) or a list of such values.  This is the shape
`_redondear_coordenadas` walks. -/
inductive CVal : Type where
  | num (x : ℚ) : CVal
  | arr (xs : List CVal) : CVal

/-- Python's `round` on floats rounds half to even (banker's rounding);
this is that rounding to the nearest integer on exact rationals. -/
def roundHalfEven (x : ℚ) : ℤ :=
  let f : ℤ := ⌊x⌋
  let r : ℚ := x - f
  if r < 1 / 2 then f
  else if 1 / 2 < r then f + 1
  else if Even f then f else f + 1

/-- Python's `round(x, precision)` for non-negative `precision`: round
`x` to `precision` decimal digits (ties to even). -/
def pyRound (x : ℚ) (precision : ℕ) : ℚ :=
  (roundHalfEven (x * 10 ^ precision) : ℚ) / 10 ^ precision

mutual
/-- Embedding of `_redondear_coordenadas(coords, precision)`.
The source inspects `coords[0]`: when it is a number, it returns the
two-element list `[round(coords[0], p), round(coords[1], p)]`; otherwise
it recurses into every member of `coords`.  `none` models a Python
exception: `coords` not a list or empty (`coords[0]` fails), a numeric
head with no second component (`coords[1]` fails), or a second component
that is itself a list (`round` on a list fails). -/
def _redondear_coordenadas (precision : ℕ) : CVal → Option CVal
  | .num _ => none
  | .arr coords =>
    match coords with
    | [] => none
    | CVal.num x :: rest =>
      match rest with
      | [] => none
      | CVal.num y :: _ =>
        some (CVal.arr [CVal.num (pyRound x precision), CVal.num (pyRound y precision)])
      | CVal.arr _ :: _ => none
    | CVal.arr a :: rest =>
      match redondearLista precision (CVal.arr a :: rest) with
      | some rs => some (CVal.arr rs)
      | none => none

/-- The list comprehension `[_redondear_coordenadas(c, precision) for c in
coords]`, propagating any exception. -/
def redondearLista (precision : ℕ) : List CVal → Option (List CVal)
  | [] => some []
  | c :: cs =>
    match _redondear_coordenadas precision c, redondearLista precision cs with
    | some r, some rs => some (r :: rs)
    | _, _ => none
end

/-- A GeoJSON geometry as dispatched by `_simplificar_geometria`: the
source compares the tag string `geom['type']` against `'Polygon'` and
`'MultiPolygon'` and interprets `geom['coordinates']` accordingly; every
other tag string falls through both branches.  The three constructors
embed that three-way dispatch; `otra` abstracts the unrecognized tag
string by a numeric code and keeps its raw coordinate payload. -/
inductive Geometria : Type where
  | polygon (coordinates : List (List Punto)) : Geometria
  | multiPolygon (coordinates : List (List (List Punto))) : Geometria
  | otra (tipo : ℕ) (coordinates : CVal) : Geometria

/-- Embedding of `_simplificar_geometria(geom, epsilon)`: for `Polygon`
each ring is normalized, for `MultiPolygon` each ring of each member
polygon is; any other tag matches neither `if` branch and the geometry is
returned as-is (`return geom`).  `none` models only a non-terminating
inner Douglas-Peucker call. -/
noncomputable def _simplificar_geometria (fuel : ℕ) (geom : Geometria) (epsilon : ℚ) :
    Option Geometria :=
  match geom with
  | .polygon coords =>
    (coords.mapM (fun anillo => _simplificar_anillo fuel anillo epsilon)).map
      Geometria.polygon
  | .multiPolygon coords =>
    (coords.mapM (fun (poligono : List (List Punto)) =>
      poligono.mapM (fun anillo => _simplificar_anillo fuel anillo epsilon))).map
      Geometria.multiPolygon
  | .otra tipo coords => some (.otra tipo coords)

/-- The spec's `euclidean(p, a)`: plane Euclidean distance (used only to
state the Distance Evaluator claims). -/
noncomputable def euclidean (p a : Punto) : ℝ :=
  Real.sqrt (((p.1 - a.1) ^ 2 + (p.2 - a.2) ^ 2 : ℚ) : ℝ)

/-- The spec's scenario ring: the closed triangle
`[(0,0), (5,10), (10,0), (0,0)]`. -/
def triAnillo : List Punto :=
  [((0 : ℚ), (0 : ℚ)), ((5 : ℚ), (10 : ℚ)), ((10 : ℚ), (0 : ℚ)), ((0 : ℚ), (0 : ℚ))]

/-! ## Basic equations and invariants of the embedded Douglas-Peucker -/

lemma dp_zero (p : List Punto) (e : ℚ) : _douglas_peucker 0 p e = none := rfl

lemma dp_succ (f : ℕ) (p : List Punto) (e : ℚ) :
    _douglas_peucker (f + 1) p e =
      if p.length ≤ 2 then some p
      else
        if (e : ℝ) < (_buscar_max p).1 then
          match _douglas_peucker f (p.take ((_buscar_max p).2 + 1)) e,
                _douglas_peucker f (p.drop (_buscar_max p).2) e with
          | some izquierda, some derecha => some (izquierda.dropLast ++ derecha)
          | _, _ => none
        else some [p.getD 0 ((0 : ℚ), (0 : ℚ)), p.getLastD ((0 : ℚ), (0 : ℚ))] := rfl

lemma dp_of_le2 (f : ℕ) (p : List Punto) (e : ℚ) (h : p.length ≤ 2) :
    _douglas_peucker (f + 1) p e = some p := by
  rw [dp_succ, if_pos h]

lemma dp_id_of_le2 {f : ℕ} {p r : List Punto} {e : ℚ}
    (h : _douglas_peucker f p e = some r) (h2 : p.length ≤ 2) : r = p := by
  cases f with
  | zero => exact absurd h (by simp [dp_zero])
  | succ f =>
    rw [dp_of_le2 _ _ _ h2] at h
    exact (Option.some.inj h).symm

lemma dp_of_flat (f : ℕ) (p : List Punto) (e : ℚ) (h1 : ¬ p.length ≤ 2)
    (h2 : ¬ (e : ℝ) < (_buscar_max p).1) :
    _douglas_peucker (f + 1) p e =
      some [p.getD 0 ((0 : ℚ), (0 : ℚ)), p.getLastD ((0 : ℚ), (0 : ℚ))] := by
  rw [dp_succ, if_neg h1, if_neg h2]

lemma dp_rec_intro {f : ℕ} {p izquierda derecha : List Punto} {e : ℚ}
    (h1 : ¬ p.length ≤ 2) (h2 : (e : ℝ) < (_buscar_max p).1)
    (hL : _douglas_peucker f (p.take ((_buscar_max p).2 + 1)) e = some izquierda)
    (hR : _douglas_peucker f (p.drop (_buscar_max p).2) e = some derecha) :
    _douglas_peucker (f + 1) p e = some (izquierda.dropLast ++ derecha) := by
  rw [dp_succ, if_neg h1, if_pos h2, hL, hR]

lemma dp_rec_elim {f : ℕ} {p r : List Punto} {e : ℚ}
    (h1 : ¬ p.length ≤ 2) (h2 : (e : ℝ) < (_buscar_max p).1)
    (h : _douglas_peucker (f + 1) p e = some r) :
    ∃ izquierda derecha,
      _douglas_peucker f (p.take ((_buscar_max p).2 + 1)) e = some izquierda ∧
      _douglas_peucker f (p.drop (_buscar_max p).2) e = some derecha ∧
      r = izquierda.dropLast ++ derecha := by
  rw [dp_succ, if_neg h1, if_pos h2] at h
  cases hL : _douglas_peucker f (p.take ((_buscar_max p).2 + 1)) e with
  | none =>
    rw [hL] at h
    cases hR : _douglas_peucker f (p.drop (_buscar_max p).2) e with
    | none => rw [hR] at h; exact absurd h (by simp)
    | some derecha => rw [hR] at h; exact absurd h (by simp)
  | some izquierda =>
    rw [hL] at h
    cases hR : _douglas_peucker f (p.drop (_buscar_max p).2) e with
    | none => rw [hR] at h; exact absurd h (by simp)
    | some derecha =>
      rw [hR] at h
      exact ⟨izquierda, derecha, rfl, rfl, (Option.some.inj h).symm⟩

lemma foldl_paso_inv (p : List Punto) (hi : ℕ) :
    ∀ (l : List ℕ), (∀ i ∈ l, 1 ≤ i ∧ i ≤ hi) →
    ∀ acc : ℝ × ℕ, ((acc.1 = 0 ∧ acc.2 = 0) ∨ (1 ≤ acc.2 ∧ acc.2 ≤ hi)) →
    (((l.foldl (_paso_max p) acc).1 = 0 ∧ (l.foldl (_paso_max p) acc).2 = 0) ∨
      (1 ≤ (l.foldl (_paso_max p) acc).2 ∧ (l.foldl (_paso_max p) acc).2 ≤ hi)) := by
  intro l
  induction l with
  | nil => intro _ acc hacc; simpa using hacc
  | cons a t ih =>
    intro hl acc hacc
    rw [List.foldl_cons]
    refine ih (fun i hm => hl i (List.mem_cons_of_mem a hm)) _ ?_
    unfold _paso_max
    dsimp only
    split
    · exact Or.inr (hl a (List.mem_cons_self a t))
    · exact hacc

/-- The scan result: either nothing ever exceeded the running maximum
(`distancia_max = 0`, `indice_max = 0`), or `indice_max` is a genuine
interior index: `1 ≤ indice_max ≤ len - 2`. -/
lemma buscar_max_cases (p : List Punto) :
    ((_buscar_max p).1 = 0 ∧ (_buscar_max p).2 = 0) ∨
      (1 ≤ (_buscar_max p).2 ∧ (_buscar_max p).2 + 2 ≤ p.length) := by
  unfold _buscar_max
  have h := foldl_paso_inv p (p.length - 1 - 1) (List.range' 1 (p.length - 1 - 1))
    (fun i hm => by
      rw [List.mem_range'_1] at hm
      omega)
    ((0 : ℝ), (0 : ℕ)) (Or.inl ⟨rfl, rfl⟩)
  rcases h with h | h
  · exact Or.inl h
  · right
    refine ⟨h.1, ?_⟩
    have h2 := h.2
    -- with 1 ≤ indice_max ≤ len - 1 - 1 the range was non-empty, so len ≥ 3
    omega

lemma dp_fuel_mono : ∀ (f : ℕ) {f' : ℕ} (p : List Punto) (e : ℚ) (r : List Punto),
    _douglas_peucker f p e = some r → f ≤ f' → _douglas_peucker f' p e = some r := by
  intro f
  induction f with
  | zero => intro f' p e r h _; exact absurd h (by simp [dp_zero])
  | succ f ih =>
    intro f' p e r h hle
    obtain ⟨f2, rfl⟩ : ∃ g, f' = g + 1 := ⟨f' - 1, by omega⟩
    by_cases h2 : p.length ≤ 2
    · rw [dp_of_le2 _ _ _ h2] at h ⊢; exact h
    · by_cases h3 : (e : ℝ) < (_buscar_max p).1
      · obtain ⟨L, R, hL, hR, rfl⟩ := dp_rec_elim h2 h3 h
        exact dp_rec_intro h2 h3 (ih _ _ _ hL (by omega)) (ih _ _ _ hR (by omega))
      · rw [dp_of_flat _ _ _ h2 h3] at h ⊢; exact h

/-- Whenever the embedded Douglas-Peucker returns on an input with at
least two points, its result has at least two points. -/
lemma dp_length_ge_two : ∀ (f : ℕ) (p : List Punto) (e : ℚ) (r : List Punto),
    _douglas_peucker f p e = some r → 2 ≤ p.length → 2 ≤ r.length := by
  intro f
  induction f with
  | zero => intro p e r h _; exact absurd h (by simp [dp_zero])
  | succ f ih =>
    intro p e r h hp
    by_cases h2 : p.length ≤ 2
    · rw [dp_id_of_le2 h h2]; exact hp
    · by_cases h3 : (e : ℝ) < (_buscar_max p).1
      · obtain ⟨L, R, hL, hR, rfl⟩ := dp_rec_elim h2 h3 h
        have hdrop : 2 ≤ (p.drop (_buscar_max p).2).length := by
          rw [List.length_drop]
          rcases buscar_max_cases p with ⟨_, h0⟩ | ⟨_, hub⟩
          · rw [h0]; omega
          · omega
        have hR2 := ih _ _ _ hR hdrop
        rw [List.length_append]
        omega
      · rw [dp_of_flat _ _ _ h2 h3] at h
        have : r = [p.getD 0 ((0 : ℚ), (0 : ℚ)), p.getLastD ((0 : ℚ), (0 : ℚ))] :=
          (Option.some.inj h).symm
        simp [this]

lemma dp_ne_nil {f : ℕ} {p r : List Punto} {e : ℚ}
    (h : _douglas_peucker f p e = some r) (hp : p ≠ []) : r ≠ [] := by
  by_cases h2 : p.length ≤ 2
  · rw [dp_id_of_le2 h h2]; exact hp
  · have h4 := dp_length_ge_two f p e r h (by omega)
    intro hnil
    rw [hnil] at h4
    simp at h4

/-! ## Sublist machinery -/

lemma sublist_tail_of_cons {α : Type _} {M N : List α} {x : α}
    (h : List.Sublist M (x :: N)) : List.Sublist M.tail N := by
  cases h with
  | cons _ h => exact (List.tail_sublist M).trans h
  | cons₂ _ h => exact h

lemma dropLast_sublist_of_sublist_concat {α : Type _} :
    ∀ (T L : List α) (x : α), List.Sublist L (T ++ [x]) →
      List.Sublist L.dropLast T := by
  intro T
  induction T with
  | nil =>
    intro L x h
    rw [List.nil_append] at h
    cases h with
    | cons _ h => simp [List.sublist_nil.mp h]
    | cons₂ _ h => simp [List.sublist_nil.mp h]
  | cons t T ih =>
    intro L x h
    rw [List.cons_append] at h
    cases h with
    | cons _ h => exact (ih L x h).trans (List.sublist_cons_self t T)
    | cons₂ _ h =>
      rename_i L'
      cases L' with
      | nil => simp
      | cons b M =>
        have : (t :: b :: M).dropLast = t :: (b :: M).dropLast := rfl
        rw [this]
        exact (ih (b :: M) x h).cons₂ t

lemma first_last_sublist {p : List Punto} (hp : 2 ≤ p.length) :
    List.Sublist [p.getD 0 ((0 : ℚ), (0 : ℚ)), p.getLastD ((0 : ℚ), (0 : ℚ))] p := by
  cases p with
  | nil => simp at hp
  | cons a q =>
    cases q with
    | nil => simp at hp
    | cons b t =>
      have h1 : (a :: b :: t).getD 0 ((0 : ℚ), (0 : ℚ)) = a := rfl
      have h2 : (a :: b :: t).getLastD ((0 : ℚ), (0 : ℚ)) =
          (b :: t).getLast (by simp) := by
        rw [List.getLastD_cons, List.getLastD_eq_getLast?,
          List.getLast?_eq_getLast_of_ne_nil (by simp)]
        rfl
      rw [h1, h2]
      exact (List.singleton_sublist.mpr (List.getLast_mem _)).cons₂ a

/-- Douglas-Peucker output is a subsequence of its input (in order). -/
lemma dp_sublist_aux : ∀ (f : ℕ) (p : List Punto) (e : ℚ) (r : List Punto),
    _douglas_peucker f p e = some r → List.Sublist r p := by
  intro f
  induction f with
  | zero => intro p e r h; exact absurd h (by simp [dp_zero])
  | succ f ih =>
    intro p e r h
    by_cases h2 : p.length ≤ 2
    · rw [dp_id_of_le2 h h2]
    · by_cases h3 : (e : ℝ) < (_buscar_max p).1
      · obtain ⟨L, R, hL, hR, rfl⟩ := dp_rec_elim h2 h3 h
        have hmlt : (_buscar_max p).2 < p.length := by
          rcases buscar_max_cases p with ⟨_, h0⟩ | ⟨_, hub⟩
          · rw [h0]; omega
          · omega
        have htake : p.take ((_buscar_max p).2 + 1) =
            p.take (_buscar_max p).2 ++ [p.get ⟨(_buscar_max p).2, hmlt⟩] := by
          rw [← List.take_concat_get p _ hmlt, List.concat_eq_append]
          rfl
        have hsubL : List.Sublist L.dropLast (p.take (_buscar_max p).2) := by
          refine dropLast_sublist_of_sublist_concat (p.take (_buscar_max p).2) L
            (p.get ⟨(_buscar_max p).2, hmlt⟩) ?_
          rw [← htake]
          exact ih _ _ _ hL
        have hsubR : List.Sublist R (p.drop (_buscar_max p).2) := ih _ _ _ hR
        have hres := hsubL.append hsubR
        rwa [List.take_append_drop] at hres
      · rw [dp_of_flat _ _ _ h2 h3] at h
        have hr : r = [p.getD 0 ((0 : ℚ), (0 : ℚ)), p.getLastD ((0 : ℚ), (0 : ℚ))] :=
          (Option.some.inj h).symm
        rw [hr]
        exact first_last_sublist (by omega)

/-! ## Endpoint retention -/

lemma head?_take_succ {α : Type _} (p : List α) (m : ℕ) :
    (p.take (m + 1)).head? = p.head? := by
  cases p with
  | nil => rfl
  | cons a t => rfl

lemma head?_dropLast_of_two_le {α : Type _} {L : List α} (h : 2 ≤ L.length) :
    L.dropLast.head? = L.head? := by
  cases L with
  | nil => simp at h
  | cons a t =>
    cases t with
    | nil => simp at h
    | cons b u => rfl

lemma getLast?_drop_of_lt {α : Type _} {p : List α} {m : ℕ} (h : m < p.length) :
    (p.drop m).getLast? = p.getLast? := by
  have hne : p.drop m ≠ [] := by
    intro hc
    have hlen := congrArg List.length hc
    rw [List.length_drop] at hlen
    simp only [List.length_nil] at hlen
    omega
  have h2 := List.getLast?_append_of_ne_nil (p.take m) hne
  rw [List.take_append_drop] at h2
  exact h2.symm

/-- Douglas-Peucker keeps the first point. -/
lemma dp_head_aux : ∀ (f : ℕ) (p : List Punto) (e : ℚ) (r : List Punto),
    _douglas_peucker f p e = some r → r.head? = p.head? := by
  intro f
  induction f with
  | zero => intro p e r h; exact absurd h (by simp [dp_zero])
  | succ f ih =>
    intro p e r h
    by_cases h2 : p.length ≤ 2
    · rw [dp_id_of_le2 h h2]
    · by_cases h3 : (e : ℝ) < (_buscar_max p).1
      · obtain ⟨L, R, hL, hR, rfl⟩ := dp_rec_elim h2 h3 h
        rcases buscar_max_cases p with ⟨_, h0⟩ | ⟨h1i, hub⟩
        · -- indice_max = 0: the left slice is the singleton `puntos[:1]`
          rw [h0] at hL hR
          have hLe : L = p.take 1 := dp_id_of_le2 hL (by
            rw [List.length_take]; omega)
          have hL0 : L.dropLast = [] := by
            rw [hLe]
            cases p with
            | nil => rfl
            | cons a t => rfl
          rw [hL0, List.nil_append]
          rw [List.drop_zero] at hR
          exact ih _ _ _ hR
        · have hL2 : 2 ≤ L.length := by
            refine dp_length_ge_two f _ e L hL ?_
            rw [List.length_take]
            omega
          have hLd : L.dropLast ≠ [] := by
            intro hc
            have hlen := congrArg List.length hc
            rw [List.length_dropLast] at hlen
            simp only [List.length_nil] at hlen
            omega
          rw [List.head?_append_of_ne_nil _ hLd, head?_dropLast_of_two_le hL2,
            ih _ _ _ hL, head?_take_succ]
      · rw [dp_of_flat _ _ _ h2 h3] at h
        have hr : r = [p.getD 0 ((0 : ℚ), (0 : ℚ)), p.getLastD ((0 : ℚ), (0 : ℚ))] :=
          (Option.some.inj h).symm
        rw [hr]
        cases p with
        | nil => simp at h2
        | cons a t => rfl

/-- Douglas-Peucker keeps the last point. -/
lemma dp_last_aux : ∀ (f : ℕ) (p : List Punto) (e : ℚ) (r : List Punto),
    _douglas_peucker f p e = some r → r.getLast? = p.getLast? := by
  intro f
  induction f with
  | zero => intro p e r h; exact absurd h (by simp [dp_zero])
  | succ f ih =>
    intro p e r h
    by_cases h2 : p.length ≤ 2
    · rw [dp_id_of_le2 h h2]
    · by_cases h3 : (e : ℝ) < (_buscar_max p).1
      · obtain ⟨L, R, hL, hR, rfl⟩ := dp_rec_elim h2 h3 h
        have hmlt : (_buscar_max p).2 < p.length := by
          rcases buscar_max_cases p with ⟨_, h0⟩ | ⟨_, hub⟩
          · rw [h0]; omega
          · omega
        have hRne : R ≠ [] := by
          refine dp_ne_nil hR ?_
          intro hc
          have hlen := congrArg List.length hc
          rw [List.length_drop] at hlen
          simp only [List.length_nil] at hlen
          omega
        rw [List.getLast?_append_of_ne_nil _ hRne, ih _ _ _ hR,
          getLast?_drop_of_lt hmlt]
      · rw [dp_of_flat _ _ _ h2 h3] at h
        have hr : r = [p.getD 0 ((0 : ℚ), (0 : ℚ)), p.getLastD ((0 : ℚ), (0 : ℚ))] :=
          (Option.some.inj h).symm
        have hne : p ≠ [] := by
          intro hc
          rw [hc] at h2
          simp at h2
        have hx : p.getLast? = some (p.getLast hne) :=
          List.getLast?_eq_getLast_of_ne_nil hne
        rw [hr]
        simp [hx]

/-! ## Tolerance monotonicity and termination -/

/-- At equal fuel, raising the tolerance never lengthens the output: the
scan `(distancia_max, indice_max)` does not depend on the tolerance, so
both runs split at the same point. -/
lemma dp_length_mono : ∀ (f : ℕ) (p : List Punto) (e1 e2 : ℚ) (r1 r2 : List Punto),
    e1 ≤ e2 → _douglas_peucker f p e1 = some r1 →
    _douglas_peucker f p e2 = some r2 → r2.length ≤ r1.length := by
  intro f
  induction f with
  | zero => intro p e1 e2 r1 r2 _ h _; exact absurd h (by simp [dp_zero])
  | succ f ih =>
    intro p e1 e2 r1 r2 h12 h1 h2
    by_cases hl : p.length ≤ 2
    · rw [dp_id_of_le2 h1 hl, dp_id_of_le2 h2 hl]
    · by_cases h3 : (e2 : ℝ) < (_buscar_max p).1
      · have h4 : (e1 : ℝ) < (_buscar_max p).1 :=
          lt_of_le_of_lt (by exact_mod_cast h12) h3
        obtain ⟨L1, R1, hL1, hR1, rfl⟩ := dp_rec_elim hl h4 h1
        obtain ⟨L2, R2, hL2, hR2, rfl⟩ := dp_rec_elim hl h3 h2
        have hLm := ih _ _ _ _ _ h12 hL1 hL2
        have hRm := ih _ _ _ _ _ h12 hR1 hR2
        rw [List.length_append, List.length_append, List.length_dropLast,
          List.length_dropLast]
        omega
      · rw [dp_of_flat _ _ _ hl h3] at h2
        have hr2 : r2.length = 2 := by
          rw [← Option.some.inj h2]
          rfl
        by_cases h4 : (e1 : ℝ) < (_buscar_max p).1
        · obtain ⟨L1, R1, hL1, hR1, rfl⟩ := dp_rec_elim hl h4 h1
          have hdrop : 2 ≤ (p.drop (_buscar_max p).2).length := by
            rw [List.length_drop]
            rcases buscar_max_cases p with ⟨_, h0⟩ | ⟨_, hub⟩
            · rw [h0]; omega
            · omega
          have hR12 := dp_length_ge_two f _ e1 R1 hR1 hdrop
          rw [List.length_append]
          omega
        · rw [dp_of_flat _ _ _ hl h4] at h1
          have hr1 : r1.length = 2 := by
            rw [← Option.some.inj h1]
            rfl
          omega

/-- With a non-negative tolerance the recursion always terminates:
whenever it splits, `distancia_max > epsilon ≥ 0` forces
`indice_max ≥ 1`, so both slices are strictly shorter, and fuel
`length + 1` suffices. -/
lemma dp_terminates_aux (e : ℚ) (he : 0 ≤ e) :
    ∀ (f : ℕ) (p : List Punto), p.length ≤ f + 2 →
    ∃ r, _douglas_peucker (f + 1) p e = some r := by
  intro f
  induction f with
  | zero => intro p hp; exact ⟨p, dp_of_le2 0 p e hp⟩
  | succ f ih =>
    intro p hp
    by_cases h2 : p.length ≤ 2
    · exact ⟨p, dp_of_le2 _ p e h2⟩
    · by_cases h3 : (e : ℝ) < (_buscar_max p).1
      · have hpos : (0 : ℝ) < (_buscar_max p).1 :=
          lt_of_le_of_lt (by exact_mod_cast he) h3
        rcases buscar_max_cases p with ⟨hd0, _⟩ | ⟨h1i, hub⟩
        · rw [hd0] at hpos; exact absurd hpos (lt_irrefl 0)
        · obtain ⟨L, hL⟩ := ih (p.take ((_buscar_max p).2 + 1)) (by
            rw [List.length_take]; omega)
          obtain ⟨R, hR⟩ := ih (p.drop (_buscar_max p).2) (by
            rw [List.length_drop]; omega)
          exact ⟨L.dropLast ++ R, dp_rec_intro h2 h3 hL hR⟩
      · exact ⟨_, dp_of_flat _ _ _ h2 h3⟩

/-! ## Concrete evaluations -/

lemma dist_degenerate (p a : Punto) :
    _punto_distancia_a_linea p a a = euclidean p a := by
  unfold _punto_distancia_a_linea euclidean
  rw [if_pos ⟨rfl, rfl⟩]

lemma dist_zero_self (a : Punto) : _punto_distancia_a_linea a a a = 0 := by
  rw [dist_degenerate]
  unfold euclidean
  simp

lemma buscar_max_bad :
    _buscar_max [((0 : ℚ), (0 : ℚ)), ((0 : ℚ), (0 : ℚ)), ((0 : ℚ), (0 : ℚ))] =
      ((0 : ℝ), (0 : ℕ)) := by
  unfold _buscar_max
  rw [show (([((0 : ℚ), (0 : ℚ)), ((0 : ℚ), (0 : ℚ)), ((0 : ℚ), (0 : ℚ))] :
    List Punto).length - 1 - 1) = 1 from rfl]
  rw [show List.range' 1 1 = [1] from rfl]
  rw [List.foldl_cons, List.foldl_nil]
  unfold _paso_max
  simp [dist_zero_self]

/-- On three coincident points with tolerance `-1` the Python recursion
calls itself on an identical argument forever (`indice_max` stays `0`, so
`puntos[indice_max:]` is the whole list while `0 > -1` still splits). -/
lemma dp_bad_diverges_aux : ∀ f : ℕ,
    _douglas_peucker f [((0 : ℚ), (0 : ℚ)), ((0 : ℚ), (0 : ℚ)), ((0 : ℚ), (0 : ℚ))]
      (-1) = none := by
  intro f
  induction f with
  | zero => rfl
  | succ f ih =>
    rw [dp_succ, buscar_max_bad]
    rw [if_neg (by norm_num)]
    rw [if_pos (by norm_num)]
    simp only [List.drop_zero]
    rw [ih]
    cases _douglas_peucker f
      ([((0 : ℚ), (0 : ℚ)), ((0 : ℚ), (0 : ℚ)), ((0 : ℚ), (0 : ℚ))].take (0 + 1)) (-1) with
    | none => rfl
    | some L => rfl

/-! ## Evaluating the triangle scenario at tolerance 9 -/

lemma dist_tri_1 :
    _punto_distancia_a_linea ((5 : ℚ), (10 : ℚ)) ((0 : ℚ), (0 : ℚ)) ((0 : ℚ), (0 : ℚ)) =
      Real.sqrt 125 := by
  unfold _punto_distancia_a_linea
  rw [if_pos ⟨rfl, rfl⟩]
  norm_num

lemma dist_tri_2 :
    _punto_distancia_a_linea ((10 : ℚ), (0 : ℚ)) ((0 : ℚ), (0 : ℚ)) ((0 : ℚ), (0 : ℚ)) =
      Real.sqrt 100 := by
  unfold _punto_distancia_a_linea
  rw [if_pos ⟨rfl, rfl⟩]
  norm_num

lemma dist_tri_3 :
    _punto_distancia_a_linea ((10 : ℚ), (0 : ℚ)) ((5 : ℚ), (10 : ℚ)) ((0 : ℚ), (0 : ℚ)) =
      Real.sqrt 80 := by
  unfold _punto_distancia_a_linea
  rw [if_neg (by norm_num)]
  norm_num [min_def, max_def]

lemma buscar_max_tri : _buscar_max triAnillo = (Real.sqrt 125, 1) := by
  unfold triAnillo _buscar_max
  rw [show (([((0 : ℚ), (0 : ℚ)), ((5 : ℚ), (10 : ℚ)), ((10 : ℚ), (0 : ℚ)),
    ((0 : ℚ), (0 : ℚ))] : List Punto).length - 1 - 1) = 2 from rfl]
  rw [show List.range' 1 2 = [1, 2] from rfl]
  rw [List.foldl_cons, List.foldl_cons, List.foldl_nil]
  unfold _paso_max
  simp only [List.getD_cons_succ, List.getD_cons_zero, List.getLastD_eq_getLast?,
    List.getLast?_cons_cons, List.getLast?_singleton, Option.getD_some]
  rw [dist_tri_1, dist_tri_2]
  rw [if_pos (Real.sqrt_pos.mpr (by norm_num))]
  rw [if_neg (not_lt.mpr (Real.sqrt_le_sqrt (by norm_num)))]

lemma buscar_max_tri_right :
    _buscar_max [((5 : ℚ), (10 : ℚ)), ((10 : ℚ), (0 : ℚ)), ((0 : ℚ), (0 : ℚ))] =
      (Real.sqrt 80, 1) := by
  unfold _buscar_max
  rw [show (([((5 : ℚ), (10 : ℚ)), ((10 : ℚ), (0 : ℚ)), ((0 : ℚ), (0 : ℚ))] :
    List Punto).length - 1 - 1) = 1 from rfl]
  rw [show List.range' 1 1 = [1] from rfl]
  rw [List.foldl_cons, List.foldl_nil]
  unfold _paso_max
  simp only [List.getD_cons_succ, List.getD_cons_zero, List.getLastD_eq_getLast?,
    List.getLast?_cons_cons, List.getLast?_singleton, Option.getD_some]
  rw [dist_tri_3]
  rw [if_pos (Real.sqrt_pos.mpr (by norm_num))]

/-- At tolerance 9 the triangle ring simplifies to three points:
`sqrt 80 ≤ 9 < sqrt 125`, so the apex splits the ring and both halves
flatten to their endpoints. -/
lemma dp_tri :
    _douglas_peucker 2 triAnillo 9 =
      some [((0 : ℚ), (0 : ℚ)), ((5 : ℚ), (10 : ℚ)), ((0 : ℚ), (0 : ℚ))] := by
  have h2 : ¬ triAnillo.length ≤ 2 := by unfold triAnillo; norm_num
  have h3 : ((9 : ℚ) : ℝ) < (_buscar_max triAnillo).1 := by
    rw [buscar_max_tri]
    rw [show ((9 : ℚ) : ℝ) = (9 : ℝ) by norm_num]
    exact (Real.lt_sqrt (by norm_num)).mpr (by norm_num)
  have hL : _douglas_peucker 1 (triAnillo.take ((_buscar_max triAnillo).2 + 1)) 9 =
      some [((0 : ℚ), (0 : ℚ)), ((5 : ℚ), (10 : ℚ))] := by
    rw [buscar_max_tri]
    rw [show triAnillo.take (1 + 1) = [((0 : ℚ), (0 : ℚ)), ((5 : ℚ), (10 : ℚ))] from rfl]
    exact dp_of_le2 0 _ 9 (by norm_num)
  have hR : _douglas_peucker 1 (triAnillo.drop (_buscar_max triAnillo).2) 9 =
      some [((5 : ℚ), (10 : ℚ)), ((0 : ℚ), (0 : ℚ))] := by
    rw [buscar_max_tri]
    rw [show triAnillo.drop 1 =
      [((5 : ℚ), (10 : ℚ)), ((10 : ℚ), (0 : ℚ)), ((0 : ℚ), (0 : ℚ))] from rfl]
    rw [dp_of_flat 0 _ 9 (by norm_num) (by
      rw [buscar_max_tri_right]
      rw [show ((9 : ℚ) : ℝ) = (9 : ℝ) by norm_num]
      exact not_lt.mpr (le_of_lt ((Real.sqrt_lt' (by norm_num)).mpr (by norm_num))))]
    rfl
  rw [dp_rec_intro h2 h3 hL hR]
  rfl


/-! ## The coordinate quantizer: equations and idempotence -/

lemma roundHalfEven_intCast (n : ℤ) : roundHalfEven (n : ℚ) = n := by
  unfold roundHalfEven
  norm_num

lemma pyRound_idem (x : ℚ) (p : ℕ) : pyRound (pyRound x p) p = pyRound x p := by
  unfold pyRound
  rw [div_mul_cancel₀ _ (by positivity : ((10 : ℚ) ^ p) ≠ 0), roundHalfEven_intCast]

lemma rc_num (p : ℕ) (x : ℚ) : _redondear_coordenadas p (CVal.num x) = none := by
  simp [_redondear_coordenadas]

lemma rc_nil (p : ℕ) : _redondear_coordenadas p (CVal.arr []) = none := by
  simp [_redondear_coordenadas]

lemma rc_leaf (p : ℕ) (x y : ℚ) (rest : List CVal) :
    _redondear_coordenadas p (CVal.arr (CVal.num x :: CVal.num y :: rest)) =
      some (CVal.arr [CVal.num (pyRound x p), CVal.num (pyRound y p)]) := by
  simp [_redondear_coordenadas]

lemma rc_leaf_single (p : ℕ) (x : ℚ) :
    _redondear_coordenadas p (CVal.arr [CVal.num x]) = none := by
  simp [_redondear_coordenadas]

lemma rc_leaf_bad (p : ℕ) (x : ℚ) (b : List CVal) (rest : List CVal) :
    _redondear_coordenadas p (CVal.arr (CVal.num x :: CVal.arr b :: rest)) = none := by
  simp [_redondear_coordenadas]

lemma rc_arrhead (p : ℕ) (a rest : List CVal) :
    _redondear_coordenadas p (CVal.arr (CVal.arr a :: rest)) =
      match redondearLista p (CVal.arr a :: rest) with
      | some rs => some (CVal.arr rs)
      | none => none := by
  rw [_redondear_coordenadas]

lemma rl_nil (p : ℕ) : redondearLista p [] = some [] := by
  simp [redondearLista]

lemma rl_cons (p : ℕ) (c : CVal) (cs : List CVal) :
    redondearLista p (c :: cs) =
      match _redondear_coordenadas p c, redondearLista p cs with
      | some r, some rs => some (r :: rs)
      | _, _ => none := by
  rw [redondearLista]

lemma rl_cons_elim {p : ℕ} {c : CVal} {cs rs : List CVal}
    (h : redondearLista p (c :: cs) = some rs) :
    ∃ r0 rs', _redondear_coordenadas p c = some r0 ∧ redondearLista p cs = some rs' ∧
      rs = r0 :: rs' := by
  rw [rl_cons] at h
  cases h0 : _redondear_coordenadas p c with
  | none => rw [h0] at h; simp at h
  | some r0 =>
    rw [h0] at h
    cases h1 : redondearLista p cs with
    | none => rw [h1] at h; simp at h
    | some rs' =>
      rw [h1] at h
      exact ⟨r0, rs', rfl, rfl, (Option.some.inj h).symm⟩

lemma rc_shape {p : ℕ} {c r : CVal} (h : _redondear_coordenadas p c = some r) :
    ∃ rs, r = CVal.arr rs ∧ rs ≠ [] := by
  cases c with
  | num x => rw [rc_num] at h; exact absurd h (by simp)
  | arr coords =>
    cases coords with
    | nil => rw [rc_nil] at h; exact absurd h (by simp)
    | cons c0 rest =>
      cases c0 with
      | num x =>
        cases rest with
        | nil => rw [rc_leaf_single] at h; exact absurd h (by simp)
        | cons c1 rest2 =>
          cases c1 with
          | num y =>
            rw [rc_leaf] at h
            exact ⟨_, (Option.some.inj h).symm, by simp⟩
          | arr b => rw [rc_leaf_bad] at h; exact absurd h (by simp)
      | arr a =>
        rw [rc_arrhead] at h
        cases h1 : redondearLista p (CVal.arr a :: rest) with
        | none => rw [h1] at h; exact absurd h (by simp)
        | some rs2 =>
          rw [h1] at h
          refine ⟨rs2, (Option.some.inj h).symm, ?_⟩
          obtain ⟨r0, rs', _, _, rfl⟩ := rl_cons_elim h1
          simp

lemma rl_self_of_idem (p : ℕ) :
    ∀ (l rs : List CVal),
      (∀ a ∈ l, ∀ r, _redondear_coordenadas p a = some r →
        _redondear_coordenadas p r = some r) →
      redondearLista p l = some rs → redondearLista p rs = some rs := by
  intro l
  induction l with
  | nil =>
    intro rs _ h
    rw [rl_nil] at h
    rw [← Option.some.inj h]
    exact rl_nil p
  | cons a l ih =>
    intro rs hIH h
    obtain ⟨r0, rs', h0, h1, rfl⟩ := rl_cons_elim h
    have hr0 : _redondear_coordenadas p r0 = some r0 :=
      hIH a (List.mem_cons_self a l) r0 h0
    have hrs' : redondearLista p rs' = some rs' :=
      ih rs' (fun b hb => hIH b (List.mem_cons_of_mem a hb)) h1
    rw [rl_cons, hr0, hrs']

lemma rc_idem_aux : ∀ (n : ℕ) (c : CVal), sizeOf c = n → ∀ (p : ℕ) (r : CVal),
    _redondear_coordenadas p c = some r → _redondear_coordenadas p r = some r := by
  intro n
  induction n using Nat.strong_induction_on with
  | _ n ih =>
    intro c hsz p r h
    cases c with
    | num x => rw [rc_num] at h; exact absurd h (by simp)
    | arr coords =>
      cases coords with
      | nil => rw [rc_nil] at h; exact absurd h (by simp)
      | cons c0 rest =>
        cases c0 with
        | num x =>
          cases rest with
          | nil => rw [rc_leaf_single] at h; exact absurd h (by simp)
          | cons c1 rest2 =>
            cases c1 with
            | num y =>
              rw [rc_leaf] at h
              rw [← Option.some.inj h]
              rw [rc_leaf]
              rw [pyRound_idem, pyRound_idem]
            | arr b => rw [rc_leaf_bad] at h; exact absurd h (by simp)
        | arr a =>
          rw [rc_arrhead] at h
          cases h1 : redondearLista p (CVal.arr a :: rest) with
          | none => rw [h1] at h; exact absurd h (by simp)
          | some rs =>
            rw [h1] at h
            rw [← Option.some.inj h]
            have hIH : ∀ b ∈ (CVal.arr a :: rest), ∀ rb,
                _redondear_coordenadas p b = some rb →
                _redondear_coordenadas p rb = some rb := by
              intro b hb rb hbr
              refine ih (sizeOf b) ?_ b rfl p rb hbr
              have h2 := List.sizeOf_lt_of_mem hb
              have h3 : sizeOf (CVal.arr (CVal.arr a :: rest)) =
                  1 + sizeOf (CVal.arr a :: rest) := by
                simp [CVal.arr.sizeOf_spec]
              omega
            have hself : redondearLista p rs = some rs :=
              rl_self_of_idem p _ rs hIH h1
            obtain ⟨r0, rs', h0, h1', rfl⟩ := rl_cons_elim h1
            obtain ⟨as0, rfl, _⟩ := rc_shape h0
            rw [rc_arrhead, hself]

lemma rl_forall2 (p : ℕ) : ∀ (l rs : List CVal), redondearLista p l = some rs →
    List.Forall₂ (fun a b => _redondear_coordenadas p a = some b) l rs := by
  intro l
  induction l with
  | nil =>
    intro rs h
    rw [rl_nil] at h
    rw [← Option.some.inj h]
    exact List.Forall₂.nil
  | cons a l ih =>
    intro rs h
    obtain ⟨r0, rs', h0, h1, rfl⟩ := rl_cons_elim h
    exact List.Forall₂.cons h0 (ih _ h1)

/-! ## Ring normalizer equations -/

lemma anillo_of_dp {fuel : ℕ} {anillo s : List Punto} {e : ℚ}
    (h : _douglas_peucker fuel anillo e = some s) :
    _simplificar_anillo fuel anillo e =
      some (if s.length < 4 then anillo else s) := by
  unfold _simplificar_anillo
  rw [h]
  simp only [Option.map_some', ite_self]

lemma anillo_some_elim {fuel : ℕ} {anillo r : List Punto} {e : ℚ}
    (h : _simplificar_anillo fuel anillo e = some r) :
    ∃ s, _douglas_peucker fuel anillo e = some s ∧
      r = (if s.length < 4 then anillo else s) := by
  unfold _simplificar_anillo at h
  cases hs : _douglas_peucker fuel anillo e with
  | none => rw [hs] at h; exact absurd h (by simp)
  | some s =>
    rw [hs] at h
    simp only [Option.map_some', ite_self] at h
    exact ⟨s, rfl, (Option.some.inj h).symm⟩

/-! ## The all-zeros 4-ring -/

lemma buscar_max_zeros4 :
    _buscar_max [((0 : ℚ), (0 : ℚ)), ((0 : ℚ), (0 : ℚ)), ((0 : ℚ), (0 : ℚ)),
      ((0 : ℚ), (0 : ℚ))] = ((0 : ℝ), (0 : ℕ)) := by
  unfold _buscar_max
  rw [show (([((0 : ℚ), (0 : ℚ)), ((0 : ℚ), (0 : ℚ)), ((0 : ℚ), (0 : ℚ)),
    ((0 : ℚ), (0 : ℚ))] : List Punto).length - 1 - 1) = 2 from rfl]
  rw [show List.range' 1 2 = [1, 2] from rfl]
  rw [List.foldl_cons, List.foldl_cons, List.foldl_nil]
  unfold _paso_max
  simp [dist_zero_self]

lemma dp_zeros4 :
    _douglas_peucker 1 [((0 : ℚ), (0 : ℚ)), ((0 : ℚ), (0 : ℚ)), ((0 : ℚ), (0 : ℚ)),
      ((0 : ℚ), (0 : ℚ))] 1 = some [((0 : ℚ), (0 : ℚ)), ((0 : ℚ), (0 : ℚ))] := by
  rw [dp_of_flat 0 _ 1 (by norm_num) (by rw [buscar_max_zeros4]; norm_num)]
  rfl

/-- At tolerance 12 the triangle flattens to its (coincident) endpoints:
`sqrt 125 ≤ 12`. -/
lemma dp_tri_12 :
    _douglas_peucker 1 triAnillo 12 = some [((0 : ℚ), (0 : ℚ)), ((0 : ℚ), (0 : ℚ))] := by
  rw [dp_of_flat 0 _ 12 (by unfold triAnillo; norm_num) (by
    rw [buscar_max_tri]
    rw [show ((12 : ℚ) : ℝ) = (12 : ℝ) by norm_num]
    exact not_lt.mpr (le_of_lt ((Real.sqrt_lt' (by norm_num)).mpr (by norm_num))))]
  rfl

/-! ## Claim theorems -/

/-- C1 (counterexample): the validity floor fails for rings that are
already invalid on input.  On the one-point ring `[(0,0)]` with
tolerance 1, `_simplificar_anillo` returns the one-point ring itself
(the fallback returns the original ring unconditionally), so the result
has fewer than 4 points. -/
theorem C1_counterexample :
    _simplificar_anillo 1 [((0 : ℚ), (0 : ℚ))] 1 = some [((0 : ℚ), (0 : ℚ))] ∧
      ¬ 4 ≤ ([((0 : ℚ), (0 : ℚ))] : List Punto).length := by
  constructor
  · rw [anillo_of_dp (dp_of_le2 0 [((0 : ℚ), (0 : ℚ))] 1 (by norm_num))]
    norm_num
  · norm_num

/-- C1 (amended): for every ring that already has at least 4 points and
every tolerance, whenever `_simplificar_anillo` returns, its result has
at least 4 points. -/
theorem C1_ring_validity_floor {fuel : ℕ} {anillo r : List Punto} {e : ℚ}
    (h4 : 4 ≤ anillo.length) (h : _simplificar_anillo fuel anillo e = some r) :
    4 ≤ r.length := by
  obtain ⟨s, hs, rfl⟩ := anillo_some_elim h
  by_cases h5 : s.length < 4
  · rw [if_pos h5]; exact h4
  · rw [if_neg h5]; omega

/-- C1 witness: the all-zeros 4-point ring at tolerance 1 simplifies to 2
points, the fallback returns the original, and the floor holds. -/
theorem C1_witness :
    _simplificar_anillo 1 [((0 : ℚ), (0 : ℚ)), ((0 : ℚ), (0 : ℚ)), ((0 : ℚ), (0 : ℚ)),
        ((0 : ℚ), (0 : ℚ))] 1 =
      some [((0 : ℚ), (0 : ℚ)), ((0 : ℚ), (0 : ℚ)), ((0 : ℚ), (0 : ℚ)),
        ((0 : ℚ), (0 : ℚ))] ∧
    4 ≤ ([((0 : ℚ), (0 : ℚ)), ((0 : ℚ), (0 : ℚ)), ((0 : ℚ), (0 : ℚ)),
        ((0 : ℚ), (0 : ℚ))] : List Punto).length := by
  have h : _simplificar_anillo 1 [((0 : ℚ), (0 : ℚ)), ((0 : ℚ), (0 : ℚ)),
      ((0 : ℚ), (0 : ℚ)), ((0 : ℚ), (0 : ℚ))] 1 =
      some [((0 : ℚ), (0 : ℚ)), ((0 : ℚ), (0 : ℚ)), ((0 : ℚ), (0 : ℚ)),
        ((0 : ℚ), (0 : ℚ))] := by
    rw [anillo_of_dp dp_zeros4]
    norm_num
  exact ⟨h, C1_ring_validity_floor (by norm_num) h⟩

/-- C2: if Douglas-Peucker simplification of a ring yields fewer than 4
points, `_simplificar_anillo` discards the simplification and returns the
original input ring unmodified. -/
theorem C2_fallback_returns_original {fuel : ℕ} {anillo s : List Punto} {e : ℚ}
    (hdp : _douglas_peucker fuel anillo e = some s) (hlt : s.length < 4) :
    _simplificar_anillo fuel anillo e = some anillo := by
  rw [anillo_of_dp hdp, if_pos hlt]

/-- C2 witness: the spec's triangle `[(0,0),(5,10),(10,0),(0,0)]` at
tolerance 9 simplifies to 3 points, so the original 4-point ring comes
back unchanged. -/
theorem C2_witness : _simplificar_anillo 2 triAnillo 9 = some triAnillo :=
  C2_fallback_returns_original dp_tri (by norm_num)

/-- C3: whenever `_douglas_peucker` returns, its output is a subsequence
of its input, with elements in the same relative order. -/
theorem C3_subsequence {fuel : ℕ} {p r : List Punto} {e : ℚ}
    (h : _douglas_peucker fuel p e = some r) : List.Sublist r p :=
  dp_sublist_aux fuel p e r h

/-- C3 witness: the 3-point simplification of the triangle is a
subsequence of the triangle. -/
theorem C3_witness :
    List.Sublist [((0 : ℚ), (0 : ℚ)), ((5 : ℚ), (10 : ℚ)), ((0 : ℚ), (0 : ℚ))]
      triAnillo :=
  C3_subsequence dp_tri

/-- C4: for every non-empty input, whenever `_douglas_peucker` returns,
the result's first element is the input's first element and its last
element is the input's last element. -/
theorem C4_endpoints {fuel : ℕ} {p r : List Punto} {e : ℚ}
    (h : _douglas_peucker fuel p e = some r) (_hp : p ≠ []) :
    r.head? = p.head? ∧ r.getLast? = p.getLast? :=
  ⟨dp_head_aux fuel p e r h, dp_last_aux fuel p e r h⟩

/-- C4 witness: the triangle's simplification keeps `(0,0)` at both
ends. -/
theorem C4_witness :
    ([((0 : ℚ), (0 : ℚ)), ((5 : ℚ), (10 : ℚ)), ((0 : ℚ), (0 : ℚ))] :
        List Punto).head? = triAnillo.head? ∧
    ([((0 : ℚ), (0 : ℚ)), ((5 : ℚ), (10 : ℚ)), ((0 : ℚ), (0 : ℚ))] :
        List Punto).getLast? = triAnillo.getLast? :=
  C4_endpoints dp_tri (by unfold triAnillo; simp)

/-- C5: for `t1 < t2`, whenever `_douglas_peucker` returns on both
tolerances, the result at `t1` is at least as long as the result at
`t2` (the scan is tolerance-independent, so both runs split at the same
vertex). -/
theorem C5_tolerance_monotone {p r1 r2 : List Punto} {t1 t2 : ℚ}
    (h12 : t1 < t2) (h1 : DPReturns p t1 r1) (h2 : DPReturns p t2 r2) :
    r2.length ≤ r1.length := by
  obtain ⟨f1, h1⟩ := h1
  obtain ⟨f2, h2⟩ := h2
  exact dp_length_mono (max f1 f2) p t1 t2 r1 r2 (le_of_lt h12)
    (dp_fuel_mono f1 p t1 r1 h1 (le_max_left f1 f2))
    (dp_fuel_mono f2 p t2 r2 h2 (le_max_right f1 f2))

/-- C5 witness: on the triangle, tolerance 9 keeps 3 points while
tolerance 12 keeps only 2. -/
theorem C5_witness :
    ([((0 : ℚ), (0 : ℚ)), ((0 : ℚ), (0 : ℚ))] : List Punto).length ≤
      ([((0 : ℚ), (0 : ℚ)), ((5 : ℚ), (10 : ℚ)), ((0 : ℚ), (0 : ℚ))] :
        List Punto).length :=
  C5_tolerance_monotone (by norm_num) ⟨2, dp_tri⟩ ⟨1, dp_tri_12⟩

/-- C6 (counterexample): a geometry whose tag is neither `Polygon` nor
`MultiPolygon` (here an unrecognized tag with payload `[1, 2]`, e.g. a
GeoJSON `Point`) is returned unchanged by `_simplificar_geometria`: the
source has no `else` branch, so no error is surfaced, contradicting the
claim. -/
theorem C6_counterexample :
    _simplificar_geometria 1 (Geometria.otra 0 (CVal.arr [CVal.num 1, CVal.num 2])) 1 =
      some (Geometria.otra 0 (CVal.arr [CVal.num 1, CVal.num 2])) := rfl

/-- C6 (amended): a geometry with an unrecognized tag matches neither
dispatch branch and is silently returned unchanged (no error, no
substitution). -/
theorem C6_amended_passthrough (fuel tipo : ℕ) (coords : CVal) (e : ℚ) :
    _simplificar_geometria fuel (Geometria.otra tipo coords) e =
      some (Geometria.otra tipo coords) := rfl

/-- C7: for coincident segment endpoints the distance primitive returns
the plain Euclidean distance to that point, and the squared segment
length that the other branch divides by is zero only when the endpoints
coincide — so the division is never reached with a zero divisor. -/
theorem C7_degenerate_distance (p a b : Punto) :
    (a = b → _punto_distancia_a_linea p a b = euclidean p a) ∧
    ((b.1 - a.1) * (b.1 - a.1) + (b.2 - a.2) * (b.2 - a.2) = 0 → a = b) := by
  constructor
  · rintro rfl
    exact dist_degenerate p a
  · intro h
    have hx : (b.1 - a.1) * (b.1 - a.1) = 0 :=
      le_antisymm (by nlinarith [mul_self_nonneg (b.2 - a.2)]) (mul_self_nonneg _)
    have hy : (b.2 - a.2) * (b.2 - a.2) = 0 :=
      le_antisymm (by nlinarith [mul_self_nonneg (b.1 - a.1)]) (mul_self_nonneg _)
    have hx0 := mul_self_eq_zero.mp hx
    have hy0 := mul_self_eq_zero.mp hy
    exact Prod.ext_iff.mpr ⟨by linarith, by linarith⟩

/-- C7 witness: `distance((3,4), (0,0), (0,0)) = euclidean((3,4), (0,0))`. -/
theorem C7_witness :
    _punto_distancia_a_linea ((3 : ℚ), (4 : ℚ)) ((0 : ℚ), (0 : ℚ)) ((0 : ℚ), (0 : ℚ)) =
      euclidean ((3 : ℚ), (4 : ℚ)) ((0 : ℚ), (0 : ℚ)) :=
  (C7_degenerate_distance ((3 : ℚ), (4 : ℚ)) ((0 : ℚ), (0 : ℚ)) ((0 : ℚ), (0 : ℚ))).1 rfl

/-- C8: quantizing twice at the same precision equals quantizing once
(`round` to a fixed number of decimals is idempotent on exact values, and
the walk is deterministic; exceptions propagate identically). -/
theorem C8_idempotent (precision : ℕ) (coords : CVal) :
    (_redondear_coordenadas precision coords).bind (_redondear_coordenadas precision) =
      _redondear_coordenadas precision coords := by
  cases h : _redondear_coordenadas precision coords with
  | none => rfl
  | some r => exact rc_idem_aux (sizeOf coords) coords rfl precision r h

/-- C9 (counterexample): with tolerance `-1` on the degenerate input
`[(0,0),(0,0),(0,0)]` (3 points, all interior distances zero) the
maximum stays `0 > -1` at `indice_max = 0`, so `puntos[indice_max:]` is
the whole list and the Python recursion never returns — it raises
`RecursionError` instead of returning a list of ≥ 2 points. -/
theorem C9_counterexample :
    DPDiverges [((0 : ℚ), (0 : ℚ)), ((0 : ℚ), (0 : ℚ)), ((0 : ℚ), (0 : ℚ))] (-1) ∧
      ¬ ∃ r, DPReturns [((0 : ℚ), (0 : ℚ)), ((0 : ℚ), (0 : ℚ)), ((0 : ℚ), (0 : ℚ))]
        (-1) r := by
  refine ⟨dp_bad_diverges_aux, ?_⟩
  rintro ⟨r, f, hf⟩
  rw [dp_bad_diverges_aux f] at hf
  exact Option.noConfusion hf

/-- C9 (amended): on inputs with at least 2 points, whenever
`_douglas_peucker` returns, its output has at least 2 points; and for
every non-negative tolerance it does return (so the original claim holds
there) — only a negative tolerance can make it diverge. -/
theorem C9_amended (p : List Punto) (e : ℚ) :
    (∀ fuel r, _douglas_peucker fuel p e = some r → 2 ≤ p.length → 2 ≤ r.length) ∧
    (0 ≤ e → 2 ≤ p.length → ∃ r, DPReturns p e r ∧ 2 ≤ r.length) := by
  constructor
  · intro fuel r h hp
    exact dp_length_ge_two fuel p e r h hp
  · intro he hp
    obtain ⟨r, hr⟩ := dp_terminates_aux e he p.length p (by omega)
    exact ⟨r, ⟨p.length + 1, hr⟩, dp_length_ge_two _ p e r hr hp⟩

/-- C9 witness: the triangle's 3-point simplification at tolerance 9 has
at least 2 points. -/
theorem C9_witness :
    2 ≤ ([((0 : ℚ), (0 : ℚ)), ((5 : ℚ), (10 : ℚ)), ((0 : ℚ), (0 : ℚ))] :
      List Punto).length :=
  (C9_amended triAnillo 9).1 2 _ dp_tri (by unfold triAnillo; norm_num)

/-- C10: `_redondear_coordenadas` normalizes a numeric leaf to exactly
the two-element list of its first two rounded components (silently
dropping any further components such as an altitude), and on a non-leaf
list it maps itself over the members element-for-element, preserving the
nesting structure. -/
theorem C10_structure {precision : ℕ} {c r : CVal}
    (h : _redondear_coordenadas precision c = some r) :
    (∀ x y rest, c = CVal.arr (CVal.num x :: CVal.num y :: rest) →
      r = CVal.arr [CVal.num (pyRound x precision), CVal.num (pyRound y precision)]) ∧
    (∀ a tl, c = CVal.arr (CVal.arr a :: tl) →
      ∃ rs, r = CVal.arr rs ∧
        List.Forall₂ (fun u v => _redondear_coordenadas precision u = some v)
          (CVal.arr a :: tl) rs) := by
  constructor
  · rintro x y rest rfl
    rw [rc_leaf] at h
    exact (Option.some.inj h).symm
  · rintro a tl rfl
    rw [rc_arrhead] at h
    cases h1 : redondearLista precision (CVal.arr a :: tl) with
    | none => rw [h1] at h; exact absurd h (by simp)
    | some rs =>
      rw [h1] at h
      exact ⟨rs, (Option.some.inj h).symm, rl_forall2 precision _ rs h1⟩

/-- C10 witness: the three-component leaf `[1, 2, 5]` is rounded to the
two-component `[round 1, round 2]` — the third (altitude) component is
dropped. -/
theorem C10_witness :
    _redondear_coordenadas 3 (CVal.arr [CVal.num 1, CVal.num 2, CVal.num 5]) =
      some (CVal.arr [CVal.num (pyRound 1 3), CVal.num (pyRound 2 3)]) := by
  obtain ⟨r, hr⟩ : ∃ r, _redondear_coordenadas 3
      (CVal.arr [CVal.num 1, CVal.num 2, CVal.num 5]) = some r :=
    ⟨_, rc_leaf 3 1 2 [CVal.num 5]⟩
  rw [hr, (C10_structure hr).1 1 2 [CVal.num 5] rfl]
